import Mathlib

/-!
Verification of `regex_toolkit` (file `regex_toolkit/base.py`).

Strings are modelled as `List Char` (Python `str` is a sequence of Unicode
scalar values).  Each definition below embeds the Python function of the
same name; helper definitions embed the module-level constant sets and the
pieces of Python semantics (hex formatting, slicing, stable sorting) the
functions rely on.
-/

/-! ## Definitions -/

/-- Hexadecimal digit character for a value below 16, lowercase, as produced
by Python `format(n, "x")`. -/
def hexDigit (d : Nat) : Char :=
  if d < 10 then Char.ofNat (48 + d) else Char.ofNat (87 + d)

/-- Recursion core for lowercase hexadecimal formatting: most significant
digit first.  The first argument is fuel; since the value shrinks by a
factor of 16 each step, fuel `n` is more than enough for value `n`. -/
def natToHexGo : Nat → Nat → List Char
  | 0, n => [hexDigit n]
  | fuel + 1, n =>
    if n < 16 then [hexDigit n] else natToHexGo fuel (n / 16) ++ [hexDigit (n % 16)]

/-- Embedding of Python `format(n, "x")` for a nonnegative `n`: lowercase
hexadecimal digits, no padding, `0` for zero. -/
def natToHex (n : Nat) : List Char :=
  natToHexGo n n

/-- Embedding of Python `str.zfill(k)` for a digit string with no sign:
left-pad with zeros up to width `k`. -/
def zfill (k : Nat) (s : List Char) : List Char :=
  List.replicate (k - s.length) '0' ++ s

/-- Embedding of `RegexToolkit.ord_to_codepoint`:
`format(ordinal, "x").zfill(8)`. -/
def ord_to_codepoint (ordinal : Nat) : List Char :=
  zfill 8 (natToHex ordinal)

/-- Value of one hexadecimal digit character (either case), `none` for any
other character. -/
def hexVal (c : Char) : Option Nat :=
  if '0' ≤ c ∧ c ≤ '9' then some (c.toNat - 48)
  else if 'a' ≤ c ∧ c ≤ 'f' then some (c.toNat - 87)
  else if 'A' ≤ c ∧ c ≤ 'F' then some (c.toNat - 55)
  else none

/-- Left-to-right accumulation of hexadecimal digits; `none` on the first
non-digit. -/
def parseHexFrom (acc : Nat) : List Char → Option Nat
  | [] => some acc
  | c :: cs =>
    match hexVal c with
    | none => none
    | some d => parseHexFrom (acc * 16 + d) cs

/-- Embedding of `RegexToolkit.codepoint_to_ord`, i.e. `int(codepoint, 16)`,
on strings of bare hexadecimal digits (the shape `ord_to_codepoint`
produces): the parsed value, or `none` (Python `ValueError`) on an empty
string or a non-digit character. -/
def codepoint_to_ord (codepoint : List Char) : Option Nat :=
  if codepoint.isEmpty then none else parseHexFrom 0 codepoint

/-- Embedding of `RegexToolkit.char_to_codepoint`:
`ord_to_codepoint(ord(char))`. -/
def char_to_codepoint (char : Char) : List Char :=
  ord_to_codepoint char.toNat

/-- Lowercase hexadecimal digit characters: `0`-`9` and `a`-`f`. -/
def isLowerHexDigit (c : Char) : Bool :=
  ('0' ≤ c && c ≤ '9') || ('a' ≤ c && c ≤ 'f')

/-- Membership in `set(string.ascii_letters)`: the ASCII ranges a-z, A-Z. -/
def isAsciiAlpha (c : Char) : Bool :=
  (decide ('a' ≤ c) && decide (c ≤ 'z')) || (decide ('A' ≤ c) && decide (c ≤ 'Z'))

/-- Membership in `set(string.digits)`: the ASCII range 0-9. -/
def isAsciiDigit (c : Char) : Bool :=
  decide ('0' ≤ c) && decide (c ≤ '9')

/-- Membership in `set(string.whitespace)`: space, tab, newline, carriage
return, vertical tab, form feed. -/
def isPyWhitespace (c : Char) : Bool :=
  c == ' ' || c == '\t' || c == '\n' || c == '\r' || c == '\x0b' || c == '\x0c'

/-- Embedding of `RegexToolkit._safe_chars`, the union of
`string.ascii_letters`, `string.digits` and `string.whitespace`. -/
def isSafeChar (c : Char) : Bool :=
  isAsciiAlpha c || isAsciiDigit c || isPyWhitespace c

/-- Embedding of `RegexToolkit._escapable_chars`, i.e.
`set(string.punctuation)`: the four ASCII punctuation ranges
0x21-0x2F, 0x3A-0x40, 0x5B-0x60, 0x7B-0x7E. -/
def isPunctChar (c : Char) : Bool :=
  (decide ('!' ≤ c) && decide (c ≤ '/')) ||
    (decide (':' ≤ c) && decide (c ≤ '@')) ||
    (decide ('[' ≤ c) && decide (c ≤ '\x60')) ||
    (decide ('\x7b' ≤ c) && decide (c ≤ '~'))

/-- Opening curly brace character (written by codepoint). -/
def lbrace : Char := Char.ofNat 0x7b

/-- Closing curly brace character (written by codepoint). -/
def rbrace : Char := Char.ofNat 0x7d

/-- Embedding of `RegexToolkit.char_as_exp`: a safe character is returned
unchanged, anything else is prefixed with one backslash. -/
def char_as_exp (char : Char) : List Char :=
  if isSafeChar char then [char] else ['\\', char]

/-- Embedding of `RegexToolkit.char_as_exp2`: a safe character is returned
unchanged, a punctuation character is prefixed with one backslash, and any
other character becomes a codepoint escape. -/
def char_as_exp2 (char : Char) : List Char :=
  if isSafeChar char then [char]
  else if isPunctChar char then ['\\', char]
  else ['\\', 'x', lbrace] ++ char_to_codepoint char ++ [rbrace]

/-- Embedding of `RegexToolkit.string_as_exp`: concatenation of the
per-character escapes. -/
def string_as_exp (text : List Char) : List Char :=
  (text.map char_as_exp).flatten

/-- Embedding of `RegexToolkit.string_as_exp2`. -/
def string_as_exp2 (text : List Char) : List Char :=
  (text.map char_as_exp2).flatten

/-- Comparison used by `sorted(texts, key=len, reverse=True)`: `a` may come
before `b` exactly when `a` is at least as long as `b`. -/
def lenGE (a b : List Char) : Bool :=
  decide (b.length ≤ a.length)

/-- Embedding of `RegexToolkit.iter_sort_by_len` with the default
`reverse=True`: Python `sorted` is a stable sort, modelled by the stable
`List.mergeSort`. -/
def iter_sort_by_len (texts : List (List Char)) : List (List Char) :=
  texts.mergeSort lenGE

/-- Embedding of `RegexToolkit.sort_by_len` with the default `reverse=True`:
the materialized form of `iter_sort_by_len`. -/
def sort_by_len (texts : List (List Char)) : List (List Char) :=
  iter_sort_by_len texts

/-- Embedding of `RegexToolkit.strings_as_exp`: escape each string after
sorting by length descending, and join with the alternation bar. -/
def strings_as_exp (texts : List (List Char)) : List Char :=
  List.intercalate ['|'] ((iter_sort_by_len texts).map string_as_exp)

/-- Embedding of `RegexToolkit.strings_as_exp2`. -/
def strings_as_exp2 (texts : List (List Char)) : List Char :=
  List.intercalate ['|'] ((iter_sort_by_len texts).map string_as_exp2)

/-- Python slice index semantics for `text[:i]` and `text[i:]` on a string
of length `n`: a negative index counts from the end (clamped at 0), a
nonnegative index is clamped at `n`. -/
def pySliceIdx (n : Nat) (i : Int) : Nat :=
  if i < 0 then n - (-i).toNat else min i.toNat n

/-- Embedding of `RegexToolkit.mask_span`:
`text[: span[0]] + mask + text[span[1] :]`, the mask omitted when `None`.
Python slicing never raises, so the function is total. -/
def mask_span (text : List Char) (span : Int × Int) (mask : Option (List Char)) : List Char :=
  match mask with
  | none =>
    text.take (pySliceIdx text.length span.1) ++ text.drop (pySliceIdx text.length span.2)
  | some m =>
    text.take (pySliceIdx text.length span.1) ++ m ++ text.drop (pySliceIdx text.length span.2)

/-- Embedding of `RegexToolkit.mask_spans`: fold `mask_span` over the
reversed spans; when masks are given, over `zip(reversed(spans),
reversed(masks))`, which silently truncates to the shorter sequence. -/
def mask_spans (text : List Char) (spans : List (Int × Int))
    (masks : Option (List (List Char))) : List Char :=
  match masks with
  | none => spans.reverse.foldl (fun acc sp => mask_span acc sp none) text
  | some ms =>
    (spans.reverse.zip ms.reverse).foldl (fun acc pm => mask_span acc pm.1 (some pm.2)) text

/-- View of a span of nonnegative positions as a Python span. -/
def natSpan (p : Nat × Nat) : Int × Int :=
  ((p.1 : Int), (p.2 : Int))

/-- Well-formed span lists starting at or after position `p` in a text of
length `n`: each span is ordered, spans ascend without overlapping, and the
last end is within bounds. -/
def spansOk : Nat → List (Nat × Nat) → Nat → Bool
  | p, [], n => decide (p ≤ n)
  | p, sp :: rest, n => decide (p ≤ sp.1) && decide (sp.1 ≤ sp.2) && spansOk sp.2 rest n

/-- Specification-side definition, from the spec's words: the result of
replacing all spans simultaneously — the text from `p` to the first span
start, the first mask, then the rest from the first span's end onward. -/
def simulFrom (t : List Char) : Nat → List (Nat × Nat) → List (List Char) → List Char
  | p, [], _ => t.drop p
  | p, sp :: rest, ms =>
    (t.drop p).take (sp.1 - p) ++ ms.headD [] ++ simulFrom t sp.2 rest ms.tail

/-! ## Hexadecimal formatting and parsing -/

theorem hexVal_hexDigit {d : Nat} (h : d < 16) : hexVal (hexDigit d) = some d := by
  interval_cases d <;> decide

theorem parseHexFrom_append (acc : Nat) (l₁ l₂ : List Char) :
    parseHexFrom acc (l₁ ++ l₂) =
      match parseHexFrom acc l₁ with
      | none => none
      | some a => parseHexFrom a l₂ := by
  induction l₁ generalizing acc with
  | nil => simp [parseHexFrom]
  | cons c cs ih =>
    simp only [List.cons_append, parseHexFrom]
    cases hexVal c with
    | none => rfl
    | some d => exact ih _

theorem parseHexFrom_natToHexGo :
    ∀ (fuel n : Nat), n ≤ fuel ∨ n < 16 → ∀ acc : Nat,
      ∃ k, 1 ≤ k ∧ parseHexFrom acc (natToHexGo fuel n) = some (acc * 16 ^ k + n)
  | 0, n, h, acc => by
    have hn : n < 16 := by omega
    refine ⟨1, le_refl 1, ?_⟩
    simp [natToHexGo, parseHexFrom, hexVal_hexDigit hn]
  | fuel + 1, n, h, acc => by
    by_cases hn : n < 16
    · refine ⟨1, le_refl 1, ?_⟩
      simp [natToHexGo, hn, parseHexFrom, hexVal_hexDigit hn]
    · have hle : n / 16 ≤ fuel ∨ n / 16 < 16 := by
        left
        have : n / 16 < n := Nat.div_lt_self (by omega) (by omega)
        omega
      obtain ⟨k, hk1, hk⟩ := parseHexFrom_natToHexGo fuel (n / 16) hle acc
      refine ⟨k + 1, by omega, ?_⟩
      simp only [natToHexGo, if_neg hn]
      rw [parseHexFrom_append, hk]
      simp only [parseHexFrom, hexVal_hexDigit (Nat.mod_lt n (by omega))]
      congr 1
      rw [pow_succ, ← mul_assoc]
      generalize acc * 16 ^ k = M
      omega

theorem parseHexFrom_natToHex (n : Nat) :
    parseHexFrom 0 (natToHex n) = some n := by
  obtain ⟨k, -, hk⟩ := parseHexFrom_natToHexGo n n (Or.inl (le_refl n)) 0
  simpa using hk

theorem parseHexFrom_replicate_zero (j : Nat) (l : List Char) :
    parseHexFrom 0 (List.replicate j '0' ++ l) = parseHexFrom 0 l := by
  induction j with
  | zero => simp
  | succ j ih =>
    simp only [List.replicate_succ, List.cons_append, parseHexFrom]
    simpa [hexVal] using ih

theorem natToHexGo_ne_nil (fuel n : Nat) : natToHexGo fuel n ≠ [] := by
  cases fuel with
  | zero => simp [natToHexGo]
  | succ fuel =>
    by_cases hn : n < 16 <;> simp [natToHexGo, hn]

theorem codepoint_to_ord_ord_to_codepoint (n : Nat) :
    codepoint_to_ord (ord_to_codepoint n) = some n := by
  have hne : natToHex n ≠ [] := natToHexGo_ne_nil n n
  have hempty : (ord_to_codepoint n).isEmpty = false := by
    simp [ord_to_codepoint, zfill, List.isEmpty_iff, hne]
  rw [codepoint_to_ord, hempty]
  simp only [Bool.false_eq_true, if_false, ord_to_codepoint, zfill]
  rw [parseHexFrom_replicate_zero, parseHexFrom_natToHex]

/-- C4: for every valid Unicode scalar value `n` (`n ≤ 0x10FFFF`),
`codepoint_to_ord (ord_to_codepoint n) = n`: formatting an ordinal as its
zero-padded lowercase-hex codepoint and parsing it back is the identity. -/
theorem codepoint_roundtrip (n : Nat) (h : n ≤ 0x10FFFF) :
    codepoint_to_ord (ord_to_codepoint n) = some n :=
  codepoint_to_ord_ord_to_codepoint n

/-- C4 witness: the round-trip at the top boundary value `0x10FFFF`. -/
theorem codepoint_roundtrip_at_max :
    codepoint_to_ord (ord_to_codepoint 0x10FFFF) = some 0x10FFFF :=
  codepoint_roundtrip 0x10FFFF (by decide)

theorem isLowerHexDigit_hexDigit {d : Nat} (h : d < 16) :
    isLowerHexDigit (hexDigit d) = true := by
  interval_cases d <;> decide

theorem natToHexGo_digits :
    ∀ (fuel n : Nat), n ≤ fuel ∨ n < 16 →
      ∀ c ∈ natToHexGo fuel n, isLowerHexDigit c = true
  | 0, n, h, c, hc => by
    have hn : n < 16 := by omega
    simp only [natToHexGo, List.mem_singleton] at hc
    exact hc ▸ isLowerHexDigit_hexDigit hn
  | fuel + 1, n, h, c, hc => by
    by_cases hn : n < 16
    · simp only [natToHexGo, if_pos hn, List.mem_singleton] at hc
      exact hc ▸ isLowerHexDigit_hexDigit hn
    · simp only [natToHexGo, if_neg hn, List.mem_append, List.mem_singleton] at hc
      rcases hc with hc | hc
      · have hle : n / 16 ≤ fuel ∨ n / 16 < 16 := by
          left
          have : n / 16 < n := Nat.div_lt_self (by omega) (by omega)
          omega
        exact natToHexGo_digits fuel (n / 16) hle c hc
      · exact hc ▸ isLowerHexDigit_hexDigit (Nat.mod_lt n (by omega))

theorem natToHexGo_length_le :
    ∀ (fuel n k : Nat), n ≤ fuel ∨ n < 16 → n < 16 ^ k → 1 ≤ k →
      (natToHexGo fuel n).length ≤ k
  | 0, n, k, _, _, hk => by simp [natToHexGo]; omega
  | fuel + 1, n, k, h, hnk, hk => by
    by_cases hn : n < 16
    · simp [natToHexGo, if_pos hn]; omega
    · have hk2 : 2 ≤ k := by
        by_contra hcon
        have : k = 1 := by omega
        subst this
        simp at hnk
        omega
      have hle : n / 16 ≤ fuel ∨ n / 16 < 16 := by
        left
        have : n / 16 < n := Nat.div_lt_self (by omega) (by omega)
        omega
      have hdiv : n / 16 < 16 ^ (k - 1) := by
        have h16 : 16 ^ k = 16 ^ (k - 1) * 16 := by
          conv_lhs => rw [show k = (k - 1) + 1 by omega]
          rw [pow_succ]
        apply Nat.div_lt_of_lt_mul
        omega
      have := natToHexGo_length_le fuel (n / 16) (k - 1) hle hdiv (by omega)
      simp only [natToHexGo, if_neg hn, List.length_append, List.length_singleton]
      omega

theorem char_toNat_lt (c : Char) : c.toNat < 0x110000 := by
  have h := c.valid
  simp only [UInt32.isValidChar, Nat.isValidChar] at h
  rw [Char.toNat]
  omega

theorem natToHex_length_of_char (c : Char) : (natToHex c.toNat).length ≤ 8 := by
  have h := char_toNat_lt c
  have := natToHexGo_length_le c.toNat c.toNat 6 (Or.inl (le_refl _)) (by omega) (by omega)
  rw [natToHex]
  omega

theorem char_to_codepoint_length (c : Char) : (char_to_codepoint c).length = 8 := by
  have := natToHex_length_of_char c
  simp only [char_to_codepoint, ord_to_codepoint, zfill, List.length_append,
    List.length_replicate]
  omega

theorem char_to_codepoint_digits (c : Char) :
    ∀ d ∈ char_to_codepoint c, isLowerHexDigit d = true := by
  intro d hd
  simp only [char_to_codepoint, ord_to_codepoint, zfill, List.mem_append,
    List.mem_replicate] at hd
  rcases hd with ⟨-, hd⟩ | hd
  · exact hd ▸ by decide
  · exact natToHexGo_digits c.toNat c.toNat (Or.inl (le_refl _)) d hd

theorem codepoint_to_ord_char_to_codepoint (c : Char) :
    codepoint_to_ord (char_to_codepoint c) = some c.toNat :=
  codepoint_to_ord_ord_to_codepoint c.toNat

/-- C9: for every character, `char_to_codepoint` returns the character's
scalar value formatted as lowercase hexadecimal, left-padded with zeros to
exactly 8 digits: the result has length 8, every character of it is a
lowercase hexadecimal digit, and parsing it back yields the scalar value. -/
theorem char_to_codepoint_spec (c : Char) :
    (char_to_codepoint c).length = 8 ∧
      (∀ d ∈ char_to_codepoint c, isLowerHexDigit d = true) ∧
      codepoint_to_ord (char_to_codepoint c) = some c.toNat :=
  ⟨char_to_codepoint_length c, char_to_codepoint_digits c,
    codepoint_to_ord_char_to_codepoint c⟩

/-! ## Escaping -/

/-- C3: `char_as_exp` is total (it is a Lean function on all of `Char`),
returns a safe character (ASCII letter, digit, or whitespace) unchanged,
and prefixes any other character with exactly one backslash. -/
theorem char_as_exp_spec (c : Char) :
    (isSafeChar c = true → char_as_exp c = [c]) ∧
      (isSafeChar c = false → char_as_exp c = ['\\', c]) := by
  constructor <;> intro h <;> simp [char_as_exp, h]

/-- C3 witness: the safe character `a` is unchanged and the unsafe
character `.` gets one backslash. -/
theorem char_as_exp_at_concrete : char_as_exp 'a' = ['a'] ∧ char_as_exp '.' = ['\\', '.'] :=
  ⟨(char_as_exp_spec 'a').1 (by decide), (char_as_exp_spec '.').2 (by decide)⟩

/-- C2: `char_as_exp2` returns a safe character unchanged, prefixes an
escapable punctuation character with one backslash, and turns any other
character into the codepoint escape backslash-x-brace, 8 lowercase hex
digits of its scalar value, close-brace. -/
theorem char_as_exp2_spec (c : Char) :
    (isSafeChar c = true → char_as_exp2 c = [c]) ∧
      (isSafeChar c = false → isPunctChar c = true → char_as_exp2 c = ['\\', c]) ∧
      (isSafeChar c = false → isPunctChar c = false →
        char_as_exp2 c = ['\\', 'x', lbrace] ++ char_to_codepoint c ++ [rbrace] ∧
          (char_to_codepoint c).length = 8 ∧
          (∀ d ∈ char_to_codepoint c, isLowerHexDigit d = true) ∧
          codepoint_to_ord (char_to_codepoint c) = some c.toNat) := by
  refine ⟨fun h => by simp [char_as_exp2, h], fun h1 h2 => by simp [char_as_exp2, h1, h2],
    fun h1 h2 => ⟨by simp [char_as_exp2, h1, h2], char_to_codepoint_length c,
      char_to_codepoint_digits c, codepoint_to_ord_char_to_codepoint c⟩⟩

/-- C2 witness: the plus-minus sign U+00B1 is neither safe nor punctuation,
so it becomes a codepoint escape. -/
theorem char_as_exp2_at_concrete :
    char_as_exp2 '±' = ['\\', 'x', lbrace] ++ char_to_codepoint '±' ++ [rbrace] ∧
      (char_to_codepoint '±').length = 8 ∧
      (∀ d ∈ char_to_codepoint '±', isLowerHexDigit d = true) ∧
      codepoint_to_ord (char_to_codepoint '±') = some '±'.toNat :=
  (char_as_exp2_spec '±').2.2 (by decide) (by decide)

/-! ## Length sorting and the alternation builder -/

theorem lenGE_trans : ∀ a b c, lenGE a b → lenGE b c → lenGE a c := by
  intro a b c hab hbc
  simp only [lenGE, decide_eq_true_eq] at *
  omega

theorem lenGE_total : ∀ a b, lenGE a b || lenGE b a := by
  intro a b
  simp only [lenGE, Bool.or_eq_true, decide_eq_true_eq]
  omega

theorem sort_by_len_perm (l : List (List Char)) : (sort_by_len l).Perm l :=
  List.mergeSort_perm l lenGE

theorem sort_by_len_sorted (l : List (List Char)) :
    (sort_by_len l).Pairwise (fun a b => b.length ≤ a.length) := by
  have h := List.sorted_mergeSort lenGE_trans lenGE_total l
  exact h.imp (by intro a b hab; simpa [lenGE] using hab)

theorem sort_by_len_filter (l : List (List Char)) (k : Nat) :
    (sort_by_len l).filter (fun s => s.length == k) =
      l.filter (fun s => s.length == k) := by
  have hsub : List.Sublist (l.filter (fun s => s.length == k)) l :=
    List.filter_sublist l
  have hpw : (l.filter (fun s => s.length == k)).Pairwise (fun a b => lenGE a b = true) := by
    apply List.pairwise_of_forall_mem_list
    intro a ha b hb
    have ha' := List.of_mem_filter ha
    have hb' := List.of_mem_filter hb
    simp only [beq_iff_eq] at ha' hb'
    simp [lenGE, ha', hb']
  have h2 : List.Sublist (l.filter (fun s => s.length == k)) (sort_by_len l) :=
    List.sublist_mergeSort lenGE_trans lenGE_total hpw hsub
  have heq : (l.filter (fun s => s.length == k)).filter (fun s => s.length == k) =
      l.filter (fun s => s.length == k) := by
    apply List.filter_eq_self.mpr
    intro a ha
    have h' := List.of_mem_filter ha
    simpa using h'
  have h3 : List.Sublist (l.filter (fun s => s.length == k))
      ((sort_by_len l).filter (fun s => s.length == k)) := by
    have := List.Sublist.filter (fun s : List Char => s.length == k) h2
    rwa [heq] at this
  have hlen : (l.filter (fun s => s.length == k)).length =
      ((sort_by_len l).filter (fun s => s.length == k)).length :=
    (((sort_by_len_perm l).filter (fun s => s.length == k)).length_eq).symm
  exact (h3.eq_of_length hlen).symm

/-- C8: `sort_by_len` (the materialization of `iter_sort_by_len`) with the
default descending order is a permutation of its input, orders it by length
descending (every longer string precedes every shorter one), and is stable:
the subsequence of strings of any fixed length is exactly the input's
subsequence of that length, in the original order. -/
theorem sort_by_len_stable_spec (l : List (List Char)) :
    (sort_by_len l).Perm l ∧
      (sort_by_len l).Pairwise (fun a b => b.length ≤ a.length) ∧
      ∀ k, (sort_by_len l).filter (fun s => s.length == k) =
        l.filter (fun s => s.length == k) :=
  ⟨sort_by_len_perm l, sort_by_len_sorted l, sort_by_len_filter l⟩

/-- C1: `strings_as_exp` equals the input strings sorted by length
descending and stably, each escaped by `string_as_exp`, joined with the
alternation bar; likewise `strings_as_exp2` with `string_as_exp2`; and the
empty collection yields the empty string. -/
theorem strings_as_exp_spec (texts : List (List Char)) :
    (∃ l : List (List Char), l.Perm texts ∧
        l.Pairwise (fun a b => b.length ≤ a.length) ∧
        (∀ k, l.filter (fun s => s.length == k) =
          texts.filter (fun s => s.length == k)) ∧
        strings_as_exp texts = List.intercalate ['|'] (l.map string_as_exp) ∧
        strings_as_exp2 texts = List.intercalate ['|'] (l.map string_as_exp2)) ∧
      strings_as_exp [] = [] ∧ strings_as_exp2 [] = [] := by
  refine ⟨⟨sort_by_len texts, sort_by_len_perm _, sort_by_len_sorted _,
    sort_by_len_filter _, rfl, rfl⟩, ?_, ?_⟩ <;>
    simp [strings_as_exp, strings_as_exp2, iter_sort_by_len, List.mergeSort_nil,
      List.intercalate]

/-! ## Span masking -/

theorem take_pySliceIdx_natCast (u : List Char) (s : Nat) :
    u.take (pySliceIdx u.length (s : Int)) = u.take s := by
  have : pySliceIdx u.length (s : Int) = min s u.length := by
    simp [pySliceIdx]
  rw [this]
  rcases le_total s u.length with h | h
  · rw [min_eq_left h]
  · rw [min_eq_right h, List.take_length, List.take_of_length_le h]

theorem drop_pySliceIdx_natCast (u : List Char) (e : Nat) :
    u.drop (pySliceIdx u.length (e : Int)) = u.drop e := by
  have : pySliceIdx u.length (e : Int) = min e u.length := by
    simp [pySliceIdx]
  rw [this]
  rcases le_total e u.length with h | h
  · rw [min_eq_left h]
  · rw [min_eq_right h, List.drop_length, List.drop_eq_nil_of_le h]

theorem mask_span_natCast (u : List Char) (s e : Nat) (m : Option (List Char)) :
    mask_span u (natSpan (s, e)) m = u.take s ++ m.getD [] ++ u.drop e := by
  cases m with
  | none =>
    simp [mask_span, natSpan, take_pySliceIdx_natCast, drop_pySliceIdx_natCast]
  | some m =>
    simp [mask_span, natSpan, take_pySliceIdx_natCast, drop_pySliceIdx_natCast]

/-- C10: supplying the empty string as the mask is exactly equivalent to
supplying no mask: for every text and every span, the two calls agree. -/
theorem mask_span_empty_mask_eq_none (t : List Char) (span : Int × Int) :
    mask_span t span (some []) = mask_span t span none := by
  simp [mask_span]

/-- C6 counterexample: on the two-character text `ab`, the span `(5, 10)`
lies outside `[0, 2]`, yet `mask_span` does not fail — Python slicing clamps
the indices and the call returns the text unchanged. -/
theorem mask_span_out_of_range_returns :
    mask_span "ab".toList ((5 : Int), (10 : Int)) none = "ab".toList := by
  decide

/-- C6 (amended): `mask_span` never fails; for every span `(start, end)`
with `0 ≤ start ≤ end ≤ len(text)` it returns the text with the span's
content replaced by the mask (deleted when the mask is `None`), and
out-of-range indices are clamped by Python slice semantics rather than
rejected. -/
theorem mask_span_in_range_spec (t : List Char) (s e : Nat) (m : Option (List Char))
    (hse : s ≤ e) (he : e ≤ t.length) :
    mask_span t ((s : Int), (e : Int)) m = t.take s ++ m.getD [] ++ t.drop e :=
  mask_span_natCast t s e m

/-- C6 witness: masking span `(5, 11)` of `hello world` with ` there`
yields `hello there`. -/
theorem mask_span_in_range_at_concrete :
    mask_span "hello world".toList ((5 : Int), (11 : Int)) (some " there".toList) =
      "hello there".toList :=
  (mask_span_in_range_spec "hello world".toList 5 11 (some " there".toList)
    (by decide) (by decide)).trans (by decide)

theorem zip_truncate_left {α β : Type} :
    ∀ (l₁ : List α) (l₂ : List β), l₁.zip l₂ = (l₁.take l₂.length).zip l₂
  | [], _ => by simp
  | _ :: _, [] => by simp
  | a :: l₁, b :: l₂ => by
    simp only [List.zip_cons_cons, List.length_cons, List.take_succ_cons]
    rw [← zip_truncate_left l₁ l₂]

theorem zip_truncate_right {α β : Type} :
    ∀ (l₁ : List α) (l₂ : List β), l₁.zip l₂ = l₁.zip (l₂.take l₁.length)
  | [], _ => by simp
  | _ :: _, [] => by simp
  | a :: l₁, b :: l₂ => by
    simp only [List.zip_cons_cons, List.length_cons, List.take_succ_cons]
    rw [← zip_truncate_right l₁ l₂]

theorem reverse_drop_eq_take_reverse {α : Type} (l : List α) (k : Nat) :
    (l.drop k).reverse = l.reverse.take (l.length - k) := by
  rw [List.reverse_drop]

/-- C7 counterexample: with two spans and one mask, `mask_spans` does not
fail — `zip` silently truncates, pairing from the right, and the call
returns a value. -/
theorem mask_spans_no_mismatch_error :
    mask_spans "abc".toList [((0 : Int), (1 : Int)), ((1 : Int), (2 : Int))]
      (some ["X".toList]) = "aXc".toList := by
  decide

/-- C7 (amended): when the supplied masks sequence's length differs from
the spans sequence's length, `mask_spans` raises no error: it silently
processes only the last `min(len(spans), len(masks))` spans, paired with
the last masks from the right, ignoring the leading excess of the longer
sequence. -/
theorem mask_spans_length_mismatch (t : List Char) (spans : List (Int × Int))
    (ms : List (List Char)) :
    (ms.length ≤ spans.length →
      mask_spans t spans (some ms) =
        mask_spans t (spans.drop (spans.length - ms.length)) (some ms)) ∧
      (spans.length ≤ ms.length →
        mask_spans t spans (some ms) =
          mask_spans t spans (some (ms.drop (ms.length - spans.length)))) := by
  constructor
  · intro hle
    simp only [mask_spans]
    congr 1
    rw [zip_truncate_left spans.reverse ms.reverse,
      reverse_drop_eq_take_reverse spans (spans.length - ms.length)]
    congr 2
    simp
    omega
  · intro hle
    simp only [mask_spans]
    congr 1
    rw [zip_truncate_right spans.reverse ms.reverse,
      reverse_drop_eq_take_reverse ms (ms.length - spans.length)]
    congr 2
    simp
    omega

/-- C7 witness: two spans with one mask process only the last span with the
last mask. -/
theorem mask_spans_length_mismatch_at_concrete :
    mask_spans "abc".toList [((0 : Int), (1 : Int)), ((1 : Int), (2 : Int))]
        (some ["X".toList]) =
      mask_spans "abc".toList [((1 : Int), (2 : Int))] (some ["X".toList]) :=
  (mask_spans_length_mismatch "abc".toList
    [((0 : Int), (1 : Int)), ((1 : Int), (2 : Int))] ["X".toList]).1 (by decide)

theorem spansOk_le : ∀ (p : Nat) (spans : List (Nat × Nat)) (n : Nat),
    spansOk p spans n = true → p ≤ n
  | p, [], n => by simp [spansOk]
  | p, sp :: rest, n => by
    simp only [spansOk, Bool.and_eq_true, decide_eq_true_eq]
    rintro ⟨⟨h1, h2⟩, h3⟩
    have := spansOk_le sp.2 rest n h3
    omega

theorem spansOk_mono {p q : Nat} {spans : List (Nat × Nat)} {n : Nat}
    (hq : q ≤ p) (h : spansOk p spans n = true) : spansOk q spans n = true := by
  cases spans with
  | nil =>
    simp only [spansOk, decide_eq_true_eq] at *
    omega
  | cons sp rest =>
    simp only [spansOk, Bool.and_eq_true, decide_eq_true_eq] at *
    exact ⟨⟨by omega, h.1.2⟩, h.2⟩

theorem drop_split (t : List Char) (p q : Nat) (h : p ≤ q) :
    t.drop p = (t.drop p).take (q - p) ++ t.drop q := by
  conv_lhs => rw [← List.take_append_drop (q - p) (t.drop p)]
  rw [List.drop_drop]
  congr 2
  omega

theorem take_split (t : List Char) (p q s : Nat) (hpq : p ≤ q) (hqs : q ≤ s) :
    (t.drop p).take (s - p) = (t.drop p).take (q - p) ++ (t.drop q).take (s - q) := by
  have hs : s - p = (q - p) + (s - q) := by omega
  rw [hs, List.take_add]
  congr 2
  rw [List.drop_drop]
  congr 1
  omega

theorem simulFrom_split (t : List Char) (spans : List (Nat × Nat))
    (ms : List (List Char)) (p q : Nat) (hpq : p ≤ q)
    (hq : ∀ sp ∈ spans.head?, q ≤ sp.1) :
    simulFrom t p spans ms = (t.drop p).take (q - p) ++ simulFrom t q spans ms := by
  cases spans with
  | nil =>
    simp only [simulFrom]
    exact drop_split t p q hpq
  | cons sp rest =>
    have hq1 : q ≤ sp.1 := hq sp rfl
    simp only [simulFrom]
    rw [take_split t p q sp.1 hpq hq1]
    simp [List.append_assoc]

theorem spansOk_head_lb {p : Nat} {spans : List (Nat × Nat)} {n : Nat}
    (h : spansOk p spans n = true) : ∀ sp ∈ spans.head?, p ≤ sp.1 := by
  cases spans with
  | nil => simp
  | cons sp rest =>
    simp only [spansOk, Bool.and_eq_true, decide_eq_true_eq] at h
    intro sp' hsp'
    simp only [List.head?_cons, Option.mem_def, Option.some_inj] at hsp'
    subst hsp'
    exact h.1.1

theorem mask_spans_simul_go :
    ∀ (spans : List (Nat × Nat)) (ms : List (List Char)) (t : List Char),
      spansOk 0 spans t.length = true → ms.length = spans.length →
      mask_spans t (spans.map natSpan) (some ms) = simulFrom t 0 spans ms
  | [], ms, t, hok, hlen => by
    have : ms = [] := List.length_eq_zero.mp (by simpa using hlen)
    subst this
    simp [mask_spans, simulFrom]
  | sp :: rest, ms, t, hok, hlen => by
    cases ms with
    | nil => simp at hlen
    | cons m mrest =>
      have hok' := hok
      simp only [spansOk, Bool.and_eq_true, decide_eq_true_eq] at hok'
      obtain ⟨⟨-, hse⟩, hrest⟩ := hok'
      have hlen' : mrest.length = rest.length := by simpa using hlen
      have hzip : ((sp :: rest).map natSpan).reverse.zip (m :: mrest).reverse =
          ((rest.map natSpan).reverse.zip mrest.reverse) ++ [(natSpan sp, m)] := by
        simp only [List.map_cons, List.reverse_cons]
        rw [List.zip_append (by simp [hlen'])]
        simp
      have hfold : mask_spans t ((sp :: rest).map natSpan) (some (m :: mrest)) =
          mask_span (mask_spans t (rest.map natSpan) (some mrest)) (natSpan sp) (some m) := by
        simp only [mask_spans, hzip, List.foldl_append, List.foldl_cons, List.foldl_nil]
      have hok0 : spansOk 0 rest t.length = true :=
        spansOk_mono (Nat.zero_le sp.2) hrest
      have ih := mask_spans_simul_go rest mrest t hok0 hlen'
      rw [hfold, ih]
      have he_n : sp.2 ≤ t.length := spansOk_le sp.2 rest t.length hrest
      have hs_n : sp.1 ≤ t.length := by omega
      have hhead := spansOk_head_lb hrest
      have hsplit1 : simulFrom t 0 rest mrest =
          t.take sp.1 ++ simulFrom t sp.1 rest mrest := by
        have := simulFrom_split t rest mrest 0 sp.1 (Nat.zero_le _)
          (by intro x hx; exact le_trans hse (hhead x hx))
        simpa using this
      have hsplit2 : simulFrom t 0 rest mrest =
          t.take sp.2 ++ simulFrom t sp.2 rest mrest := by
        have := simulFrom_split t rest mrest 0 sp.2 (Nat.zero_le _) hhead
        simpa using this
      rw [mask_span_natCast]
      have htake : (simulFrom t 0 rest mrest).take sp.1 = t.take sp.1 := by
        rw [hsplit1]
        exact List.take_left' (by simp [hs_n])
      have hdrop : (simulFrom t 0 rest mrest).drop sp.2 = simulFrom t sp.2 rest mrest := by
        rw [hsplit2]
        exact List.drop_left' (by simp [he_n])
      rw [htake, hdrop]
      simp [simulFrom]

/-- C5: for every text, every ascending list of non-overlapping in-bounds
spans, and every masks list of the same length, `mask_spans` (which
processes spans rightmost-first, pairing mask `i` with span `i`) returns
the result of replacing all the spans simultaneously, span `i` by mask
`i`. -/
theorem mask_spans_simultaneous (t : List Char) (spans : List (Nat × Nat))
    (ms : List (List Char)) (hok : spansOk 0 spans t.length = true)
    (hlen : ms.length = spans.length) :
    mask_spans t (spans.map natSpan) (some ms) = simulFrom t 0 spans ms :=
  mask_spans_simul_go spans ms t hok hlen

/-- C5 witness: `mask_spans("abcdef", [(0,1),(2,3)], masks=["X","Y"])`
yields `XbYdef`. -/
theorem mask_spans_simultaneous_at_concrete :
    mask_spans "abcdef".toList ([(0, 1), (2, 3)].map natSpan)
      (some ["X".toList, "Y".toList]) = "XbYdef".toList :=
  (mask_spans_simultaneous "abcdef".toList [(0, 1), (2, 3)]
    ["X".toList, "Y".toList] (by decide) (by decide)).trans (by decide)
